import Mathlib

/-
Verification of the duplicate-file detection and disposal engine
(src/Python/advanced_file_manager.py) against its design specification.

Shallow embedding conventions:
- The filesystem is an explicit value of type `FS`: `stat` models
  `os.path.getsize` (returning `none` when the call raises `IOError`/`OSError`)
  and `read` models opening and reading the file (returning `none` when the
  read raises, which makes `get_file_hash` return Python's `None`).
- `os.walk` is modelled by passing the walked file list explicitly; Python's
  `os.walk` on a nonexistent root yields no entries (its internal `scandir`
  error is swallowed by the default `onerror=None`), so an invalid root is
  the empty walk.
- The SHA-256 digest is an abstract function `hashFn : Content → Content`;
  theorems that need "fingerprint equality ↔ content equality" take
  injectivity of `hashFn` as a hypothesis.
- Python dicts (`file_hashes` and its per-size buckets) are association
  lists with first-match lookup and update-in-place-or-append insertion,
  mirroring dict key semantics.
- `print`-style per-file error reports are accumulated in an `errors` list;
  the ghost fields `hashed` / `inserted` log each call of `get_file_hash`
  and each index write, so that claims about when hashing or insertion
  happens are statable.
-/

abbrev Content := List Nat

/-- Hash-table key of a per-size bucket: a computed fingerprint, or Python's
`None` when `get_file_hash` failed (the source stores that `None` as a dict
key). -/
abbrev HKey := Option Content

abbrev Bucket := List (HKey × String)

abbrev Index := List (Nat × Bucket)

/-- Filesystem model: `stat` is `os.path.getsize` (with `none` for a raised
`IOError`/`OSError`), `read` is the full byte content obtained by the read
loop in `get_file_hash` (with `none` when the read raises `IOError`). -/
structure FS where
  stat : String → Option Nat
  read : String → Option Content

/-- Association-list lookup, first match wins (Python dict `d[k]` /
`k in d`). -/
def afind {α β : Type} [DecidableEq α] (k : α) : List (α × β) → Option β
  | [] => none
  | (a, b) :: t => if a = k then some b else afind k t

/-- Association-list write `d[k] = v`: overwrite the existing entry for `k`
or append a new one, as a Python dict does. -/
def aset {α β : Type} [DecidableEq α] (k : α) (v : β) : List (α × β) → List (α × β)
  | [] => [(k, v)]
  | (a, b) :: t => if a = k then (k, v) :: t else (a, b) :: aset k v t

theorem afind_aset_self {α β : Type} [DecidableEq α] (k : α) (v : β) (l : List (α × β)) :
    afind k (aset k v l) = some v := by
  induction l with
  | nil => simp [afind, aset]
  | cons hd t ih =>
    obtain ⟨a, b⟩ := hd
    by_cases h : a = k <;> simp [afind, aset, h, ih]

theorem afind_aset_ne {α β : Type} [DecidableEq α] {k k' : α} (h : k' ≠ k) (v : β)
    (l : List (α × β)) : afind k (aset k' v l) = afind k l := by
  induction l with
  | nil => simp [afind, aset, h]
  | cons hd t ih =>
    obtain ⟨a, b⟩ := hd
    by_cases ha : a = k'
    · subst ha
      simp [afind, aset, h]
    · simp only [aset, if_neg ha]
      by_cases hak : a = k <;> simp [afind, hak, ih]

/-- Looking up in a written association list returns either the written value
or whatever was there before. -/
theorem afind_aset_cases {α β : Type} [DecidableEq α] {k k' : α} {v q : β}
    {l : List (α × β)} (h : afind k (aset k' v l) = some q) :
    q = v ∨ afind k l = some q := by
  by_cases hk : k' = k
  · subst hk
    rw [afind_aset_self] at h
    exact Or.inl (Option.some.inj h).symm
  · rw [afind_aset_ne hk] at h
    exact Or.inr h

/-- Fuel-indexed chunking of a byte list into pieces of `n` bytes, modelling
the `while chunk := f.read(8192)` loop of `get_file_hash`. The fuel is an
upper bound on the number of iterations; with `fuel > length` and `n > 0`
it never runs out. -/
def chunksGo (n : Nat) : Nat → Content → List Content
  | 0, _ => []
  | _ + 1, [] => []
  | fuel + 1, a :: t => (a :: t).take n :: chunksGo n fuel ((a :: t).drop n)

/-- The successive `f.read(8192)` results for a file whose full content is
`content`. -/
def chunksOf (n : Nat) (content : Content) : List Content :=
  chunksGo n (content.length + 1) content

theorem foldl_append_eq_append_flatten {α : Type} :
    ∀ (L : List (List α)) (acc : List α), L.foldl (· ++ ·) acc = acc ++ L.flatten
  | [], acc => by simp
  | l :: L, acc => by
    rw [List.foldl_cons, foldl_append_eq_append_flatten L, List.flatten_cons,
      List.append_assoc]

theorem chunksGo_flatten (n : Nat) (hn : 0 < n) :
    ∀ (fuel : Nat) (l : Content), l.length < fuel → (chunksGo n fuel l).flatten = l := by
  intro fuel
  induction fuel with
  | zero => intro l h; omega
  | succ f ih =>
    intro l h
    match l with
    | [] => simp [chunksGo]
    | a :: t =>
      have hdrop : ((a :: t).drop n).length < f := by
        rw [List.length_drop]
        simp only [List.length_cons] at h ⊢
        omega
      simp only [chunksGo, List.flatten_cons]
      rw [ih _ hdrop, List.take_append_drop]

theorem chunksOf_flatten (n : Nat) (hn : 0 < n) (content : Content) :
    (chunksOf n content).flatten = content :=
  chunksGo_flatten n hn _ content (Nat.lt_succ_self _)

theorem chunksGo_length_le (n : Nat) :
    ∀ (fuel : Nat) (l : Content), ∀ c ∈ chunksGo n fuel l, c.length ≤ n := by
  intro fuel
  induction fuel with
  | zero => intro l c hc; simp [chunksGo] at hc
  | succ f ih =>
    intro l c hc
    match l with
    | [] => simp [chunksGo] at hc
    | a :: t =>
      simp only [chunksGo, List.mem_cons] at hc
      rcases hc with rfl | hc
      · simp
      · exact ih _ c hc

/-- Model of `get_file_hash(filepath, 'sha256')`: stream the content in
8192-byte chunks through the hasher (the hasher state is the byte stream fed
so far; `hexdigest` applies the abstract digest `hashFn` to it) and return
the digest, or `None` when the read raises `IOError`. -/
def get_file_hash (hashFn : Content → Content) (fs : FS) (p : String) : Option Content :=
  match fs.read p with
  | none => none
  | some content => some (hashFn ((chunksOf 8192 content).foldl (· ++ ·) []))

theorem get_file_hash_read {hashFn : Content → Content} {fs : FS} {p : String}
    {c : Content} (h : fs.read p = some c) :
    get_file_hash hashFn fs p = some (hashFn c) := by
  simp only [get_file_hash, h]
  rw [foldl_append_eq_append_flatten, List.nil_append, chunksOf_flatten 8192 (by omega)]

theorem get_file_hash_read_none {hashFn : Content → Content} {fs : FS} {p : String}
    (h : fs.read p = none) : get_file_hash hashFn fs p = none := by
  simp [get_file_hash, h]

theorem get_file_hash_some_inv {hashFn : Content → Content} {fs : FS} {p : String}
    {h : Content} (hh : get_file_hash hashFn fs p = some h) :
    ∃ c, fs.read p = some c ∧ hashFn c = h := by
  cases hr : fs.read p with
  | none => rw [get_file_hash_read_none hr] at hh; cases hh
  | some c =>
    rw [get_file_hash_read hr] at hh
    exact ⟨c, rfl, Option.some.inj hh⟩

/-- State of `find_duplicate_files` while walking. `file_hashes` and
`duplicates` are the two variables of the source; `errors` records the
per-file error prints (the `except (IOError, OSError)` handler around the
`getsize` branch and the handler inside `get_file_hash`); the ghost fields
`hashed` and `inserted` log, in order, each path for which `get_file_hash`
was invoked and each path written into `file_hashes`. -/
structure ScanState where
  file_hashes : Index
  duplicates : List (String × String)
  errors : List String
  hashed : List String
  inserted : List String
deriving DecidableEq

def initState : ScanState := ⟨[], [], [], [], []⟩

/-- Loop body of `find_duplicate_files` for one walked path, translated
branch by branch from the source:

    file_size = os.path.getsize(full_path)        -- raises → except: continue
    if file_size in file_hashes:
        current_hash = get_file_hash(full_path)
        if current_hash is not None and current_hash in file_hashes[file_size]:
            duplicates.append((full_path, file_hashes[file_size][current_hash]))
        else:
            file_hashes[file_size][current_hash] = full_path
    else:
        file_hashes[file_size] = {get_file_hash(full_path): full_path}
-/
def processFile (hashFn : Content → Content) (fs : FS) (st : ScanState) (p : String) :
    ScanState :=
  match fs.stat p with
  | none => { st with errors := st.errors ++ [p] }
  | some sz =>
    match afind sz st.file_hashes with
    | some bucket =>
      match get_file_hash hashFn fs p with
      | some h =>
        match afind (some h) bucket with
        | some orig =>
          { st with hashed := st.hashed ++ [p],
                    duplicates := st.duplicates ++ [(p, orig)] }
        | none =>
          { st with hashed := st.hashed ++ [p],
                    file_hashes := aset sz (aset (some h) p bucket) st.file_hashes,
                    inserted := st.inserted ++ [p] }
      | none =>
        { st with hashed := st.hashed ++ [p],
                  errors := st.errors ++ [p],
                  file_hashes := aset sz (aset none p bucket) st.file_hashes,
                  inserted := st.inserted ++ [p] }
    | none =>
      match get_file_hash hashFn fs p with
      | some h =>
        { st with hashed := st.hashed ++ [p],
                  file_hashes := aset sz [(some h, p)] st.file_hashes,
                  inserted := st.inserted ++ [p] }
      | none =>
        { st with hashed := st.hashed ++ [p],
                  errors := st.errors ++ [p],
                  file_hashes := aset sz [(none, p)] st.file_hashes,
                  inserted := st.inserted ++ [p] }

/-- Model of `find_duplicate_files(directory)`: fold the loop body over the
paths yielded by `os.walk(directory)`. -/
def find_duplicate_files (hashFn : Content → Content) (fs : FS) (walk : List String) :
    ScanState :=
  walk.foldl (processFile hashFn fs) initState

/-- Every path stored anywhere in the two-level index. -/
def indexValues (idx : Index) : List String :=
  idx.flatMap (fun sb => sb.2.map Prod.snd)

/-- Two-level lookup `file_hashes[s][k]`, `none` when either level misses. -/
def lookup2 (idx : Index) (s : Nat) (k : HKey) : Option String :=
  match afind s idx with
  | none => none
  | some b => afind k b

/-- The filesystem metadata agrees with the contents on the walked paths:
whatever `get_file_hash` would read for a walked path has exactly the length
reported by `os.path.getsize`. -/
def consistentOn (fs : FS) (walk : List String) : Prop :=
  ∀ p ∈ walk, ∀ c, fs.read p = some c → fs.stat p = some c.length

/-- Executable check for `consistentOn`, used to discharge it on concrete
filesystems. -/
def consistentOnB (fs : FS) (walk : List String) : Bool :=
  walk.all (fun p =>
    match fs.read p with
    | some c => fs.stat p == some c.length
    | none => true)

theorem consistentOnB_sound {fs : FS} {walk : List String}
    (h : consistentOnB fs walk = true) : consistentOn fs walk := by
  intro p hp c hc
  have hb := List.all_eq_true.mp h p hp
  rw [hc] at hb
  exact eq_of_beq hb

/-- A walked path fails classification when `getsize` raises or when
`get_file_hash` returns `None`; these are exactly the paths the loop reports
as per-file errors. -/
def fileErrorB (hashFn : Content → Content) (fs : FS) (p : String) : Bool :=
  match fs.stat p with
  | none => true
  | some _ => (get_file_hash hashFn fs p).isNone

theorem processFile_stat_none {hashFn : Content → Content} {fs : FS} {st : ScanState}
    {p : String} (h1 : fs.stat p = none) :
    processFile hashFn fs st p = { st with errors := st.errors ++ [p] } := by
  simp [processFile, h1]

theorem processFile_dup {hashFn : Content → Content} {fs : FS} {st : ScanState}
    {p : String} {sz : Nat} {bucket : Bucket} {hh : Content} {orig : String}
    (h1 : fs.stat p = some sz) (h2 : afind sz st.file_hashes = some bucket)
    (h3 : get_file_hash hashFn fs p = some hh) (h4 : afind (some hh) bucket = some orig) :
    processFile hashFn fs st p =
      { st with hashed := st.hashed ++ [p],
                duplicates := st.duplicates ++ [(p, orig)] } := by
  simp [processFile, h1, h2, h3, h4]

theorem processFile_ins_old {hashFn : Content → Content} {fs : FS} {st : ScanState}
    {p : String} {sz : Nat} {bucket : Bucket} {hh : Content}
    (h1 : fs.stat p = some sz) (h2 : afind sz st.file_hashes = some bucket)
    (h3 : get_file_hash hashFn fs p = some hh) (h4 : afind (some hh) bucket = none) :
    processFile hashFn fs st p =
      { st with hashed := st.hashed ++ [p],
                file_hashes := aset sz (aset (some hh) p bucket) st.file_hashes,
                inserted := st.inserted ++ [p] } := by
  simp [processFile, h1, h2, h3, h4]

theorem processFile_ins_old_hashfail {hashFn : Content → Content} {fs : FS}
    {st : ScanState} {p : String} {sz : Nat} {bucket : Bucket}
    (h1 : fs.stat p = some sz) (h2 : afind sz st.file_hashes = some bucket)
    (h3 : get_file_hash hashFn fs p = none) :
    processFile hashFn fs st p =
      { st with hashed := st.hashed ++ [p],
                errors := st.errors ++ [p],
                file_hashes := aset sz (aset none p bucket) st.file_hashes,
                inserted := st.inserted ++ [p] } := by
  simp [processFile, h1, h2, h3]

theorem processFile_ins_new {hashFn : Content → Content} {fs : FS} {st : ScanState}
    {p : String} {sz : Nat} {hh : Content}
    (h1 : fs.stat p = some sz) (h2 : afind sz st.file_hashes = none)
    (h3 : get_file_hash hashFn fs p = some hh) :
    processFile hashFn fs st p =
      { st with hashed := st.hashed ++ [p],
                file_hashes := aset sz [(some hh, p)] st.file_hashes,
                inserted := st.inserted ++ [p] } := by
  simp [processFile, h1, h2, h3]

theorem processFile_ins_new_hashfail {hashFn : Content → Content} {fs : FS}
    {st : ScanState} {p : String} {sz : Nat}
    (h1 : fs.stat p = some sz) (h2 : afind sz st.file_hashes = none)
    (h3 : get_file_hash hashFn fs p = none) :
    processFile hashFn fs st p =
      { st with hashed := st.hashed ++ [p],
                errors := st.errors ++ [p],
                file_hashes := aset sz [(none, p)] st.file_hashes,
                inserted := st.inserted ++ [p] } := by
  simp [processFile, h1, h2, h3]

/-- The `action` parameter of `manage_duplicate_files` ('list' / 'delete' /
'move'). -/
inductive DispAction
  | noteOnly
  | delete
  | move
deriving DecidableEq

/-- External failure injection for the disposition run: paths on which
`os.remove` or `shutil.move` raise a `PermissionError` (an `OSError`). -/
structure World where
  denied : List String
deriving DecidableEq

/-- Filesystem-effect state of a disposition run. `files` and `dirs` are the
existing regular files and directories; `removed`, `moved` and `createdDirs`
log the successful `os.remove`, `shutil.move` and `os.makedirs` calls;
`pairErrors` logs the per-pair failures caught and printed by the two
`except` clauses. -/
structure DispState where
  files : List String
  dirs : List String
  removed : List String
  moved : List (String × String)
  createdDirs : List String
  pairErrors : List String
deriving DecidableEq

/-- Model of `os.path.basename`: the suffix after the last `/`, computed by
scanning the characters and restarting at each separator. -/
def basenameChars (l : List Char) : List Char :=
  l.foldl (fun acc c => if c = '/' then [] else acc ++ [c]) []

/-- Model of `os.path.basename`. -/
def basename (s : String) : String :=
  ⟨basenameChars s.data⟩

/-- Loop body of `manage_duplicate_files` for one pair `(path1, path2)`.
The source acts on `path2` in both the delete and the move branch. `now`
models `datetime.now().strftime(...)` at loop iteration `i` (the move branch
re-reads the clock on every pair). A raised exception that no `except`
clause catches is `Except.error` carrying the state at the raise:

* `os.remove(path2)` raises `OSError` when the file is gone or access is
  denied; the `except OSError` clause catches it (per-pair error).
* `shutil.move(path2, dst)` raises `FileNotFoundError` / `PermissionError`
  (subclasses of `OSError` but not of `shutil.Error`) in the same
  situations; the `except shutil.Error` clause does NOT catch those, so
  they propagate. The `shutil.Error` cases (destination-directory
  collisions) do not arise in this model. -/
def dispStep (w : World) (action : DispAction) (now : Nat → Nat) (i : Nat)
    (st : DispState) (pr : String × String) : Except DispState DispState :=
  match action with
  | .noteOnly => .ok st
  | .delete =>
    if pr.2 ∈ st.files ∧ pr.2 ∉ w.denied then
      .ok { st with files := st.files.erase pr.2, removed := st.removed ++ [pr.2] }
    else
      .ok { st with pairErrors := st.pairErrors ++ [pr.2] }
  | .move =>
    let moveDir := "duplicates_" ++ toString (now i)
    let st1 :=
      if moveDir ∈ st.dirs then st
      else { st with dirs := st.dirs ++ [moveDir],
                     createdDirs := st.createdDirs ++ [moveDir] }
    if pr.2 ∈ st1.files ∧ pr.2 ∉ w.denied then
      let dst := moveDir ++ "/" ++ basename pr.2
      .ok { st1 with files := st1.files.erase pr.2 ++ [dst],
                     moved := st1.moved ++ [(pr.2, dst)] }
    else
      .error st1

/-- Model of `manage_duplicate_files(duplicates, action)`: process the pairs
in order, stopping with `Except.error` when an uncaught exception
propagates out of the loop. -/
def manage_duplicate_files (w : World) (action : DispAction) (now : Nat → Nat) :
    Nat → DispState → List (String × String) → Except DispState DispState
  | _, st, [] => .ok st
  | i, st, pr :: rest =>
    match dispStep w action now i st pr with
    | .ok st2 => manage_duplicate_files w action now (i + 1) st2 rest
    | .error st2 => .error st2

/-- The filesystem state when the run returns or when the uncaught exception
leaves `manage_duplicate_files`. -/
def dispResultState : Except DispState DispState → DispState
  | .ok st => st
  | .error st => st

/-- True when the batch was aborted by an uncaught exception. -/
def isBatchAbort : Except DispState DispState → Bool
  | .ok _ => false
  | .error _ => true

theorem processFile_hashed (hashFn : Content → Content) (fs : FS) (st : ScanState)
    (p : String) :
    (processFile hashFn fs st p).hashed =
      st.hashed ++ (if (fs.stat p).isSome then [p] else []) := by
  cases hstat : fs.stat p with
  | none => simp [processFile_stat_none hstat, hstat]
  | some sz =>
    cases hbk : afind sz st.file_hashes with
    | some bucket =>
      cases hh : get_file_hash hashFn fs p with
      | some h =>
        cases hor : afind (some h) bucket with
        | some orig => simp [processFile_dup hstat hbk hh hor, hstat]
        | none => simp [processFile_ins_old hstat hbk hh hor, hstat]
      | none => simp [processFile_ins_old_hashfail hstat hbk hh, hstat]
    | none =>
      cases hh : get_file_hash hashFn fs p with
      | some h => simp [processFile_ins_new hstat hbk hh, hstat]
      | none => simp [processFile_ins_new_hashfail hstat hbk hh, hstat]

theorem processFile_errors (hashFn : Content → Content) (fs : FS) (st : ScanState)
    (p : String) :
    (processFile hashFn fs st p).errors =
      st.errors ++ (if fileErrorB hashFn fs p then [p] else []) := by
  cases hstat : fs.stat p with
  | none => simp [processFile_stat_none hstat, fileErrorB, hstat]
  | some sz =>
    cases hbk : afind sz st.file_hashes with
    | some bucket =>
      cases hh : get_file_hash hashFn fs p with
      | some h =>
        cases hor : afind (some h) bucket with
        | some orig => simp [processFile_dup hstat hbk hh hor, fileErrorB, hstat, hh]
        | none => simp [processFile_ins_old hstat hbk hh hor, fileErrorB, hstat, hh]
      | none => simp [processFile_ins_old_hashfail hstat hbk hh, fileErrorB, hstat, hh]
    | none =>
      cases hh : get_file_hash hashFn fs p with
      | some h => simp [processFile_ins_new hstat hbk hh, fileErrorB, hstat, hh]
      | none => simp [processFile_ins_new_hashfail hstat hbk hh, fileErrorB, hstat, hh]

theorem foldl_hashed (hashFn : Content → Content) (fs : FS) :
    ∀ (walk : List String) (st : ScanState),
      (walk.foldl (processFile hashFn fs) st).hashed =
        st.hashed ++ walk.filter (fun p => (fs.stat p).isSome)
  | [], st => by simp
  | p :: rest, st => by
    rw [List.foldl_cons, foldl_hashed hashFn fs rest, processFile_hashed]
    by_cases h : (fs.stat p).isSome <;>
      simp [List.filter_cons, h]

theorem foldl_errors (hashFn : Content → Content) (fs : FS) :
    ∀ (walk : List String) (st : ScanState),
      (walk.foldl (processFile hashFn fs) st).errors =
        st.errors ++ walk.filter (fileErrorB hashFn fs)
  | [], st => by simp
  | p :: rest, st => by
    rw [List.foldl_cons, foldl_errors hashFn fs rest, processFile_errors]
    by_cases h : fileErrorB hashFn fs p <;>
      simp [List.filter_cons, h]

/-- Every path `find_duplicate_files` hashes is a walked path whose
`getsize` succeeded. -/
theorem find_duplicate_files_hashed (hashFn : Content → Content) (fs : FS)
    (walk : List String) :
    (find_duplicate_files hashFn fs walk).hashed =
      walk.filter (fun p => (fs.stat p).isSome) := by
  rw [find_duplicate_files, foldl_hashed]
  rfl

/-- The per-file errors reported by a scan are exactly the walked paths whose
`getsize` raised or whose `get_file_hash` returned `None`, in walk order. -/
theorem find_duplicate_files_errors (hashFn : Content → Content) (fs : FS)
    (walk : List String) :
    (find_duplicate_files hashFn fs walk).errors =
      walk.filter (fileErrorB hashFn fs) := by
  rw [find_duplicate_files, foldl_errors]
  rfl

/-- Group invariant for a fixed content `c`: after processing some prefix of
the walk in which the group members (paths reading `c`) were, in order,
`gdone`, the index slot for `(c.length, hashFn c)` holds the first group
member, and the emitted pairs whose duplicate side reads `c` are exactly the
later group members, each paired with that first member. -/
def GInv (hashFn : Content → Content) (fs : FS) (c : Content) (st : ScanState)
    (gdone : List String) : Prop :=
  lookup2 st.file_hashes c.length (some (hashFn c)) = gdone.head? ∧
  st.duplicates.filter (fun pr => decide (fs.read pr.1 = some c)) =
    gdone.tail.map (fun p => (p, gdone.headI))

theorem GInv_init (hashFn : Content → Content) (fs : FS) (c : Content) :
    GInv hashFn fs c initState [] := by
  constructor <;> simp [initState, lookup2, afind]

theorem GInv_step {hashFn : Content → Content} {fs : FS} {c : Content}
    {st : ScanState} {gdone : List String} {p : String}
    (hinj : Function.Injective hashFn)
    (hc : fs.read p = some c → fs.stat p = some c.length)
    (h : GInv hashFn fs c st gdone) :
    GInv hashFn fs c (processFile hashFn fs st p)
      (gdone ++ if fs.read p = some c then [p] else []) := by
  obtain ⟨hA, hB⟩ := h
  by_cases hpc : fs.read p = some c
  · -- p is a member of the group for content c
    have hhash : get_file_hash hashFn fs p = some (hashFn c) := get_file_hash_read hpc
    have hstat : fs.stat p = some c.length := hc hpc
    rw [if_pos hpc]
    cases hbk : afind c.length st.file_hashes with
    | none =>
      have hgd : gdone = [] := by
        have hnone : gdone.head? = none := by rw [← hA]; simp [lookup2, hbk]
        cases gdone with
        | nil => rfl
        | cons g gs => simp at hnone
      subst hgd
      rw [processFile_ins_new hstat hbk hhash]
      refine ⟨?_, ?_⟩
      · simp [lookup2, afind_aset_self, afind]
      · simpa using hB
    | some bucket =>
      cases hor : afind (some (hashFn c)) bucket with
      | some orig =>
        have hhd : gdone.head? = some orig := by
          rw [← hA]; simp [lookup2, hbk, hor]
        cases gdone with
        | nil => simp at hhd
        | cons g gs =>
          have hg : g = orig := by simpa using hhd
          subst hg
          rw [processFile_dup hstat hbk hhash hor]
          refine ⟨?_, ?_⟩
          · simpa [List.cons_append] using hA
          · rw [List.filter_append]
            simp only [List.cons_append, List.tail_cons, List.headI_cons] at hB ⊢
            rw [hB]
            simp [hpc]
      | none =>
        have hgd : gdone = [] := by
          have hnone : gdone.head? = none := by rw [← hA]; simp [lookup2, hbk, hor]
          cases gdone with
          | nil => rfl
          | cons g gs => simp at hnone
        subst hgd
        rw [processFile_ins_old hstat hbk hhash hor]
        refine ⟨?_, ?_⟩
        · simp [lookup2, afind_aset_self]
        · simpa using hB
  · -- p is not in the group: the tracked slot and pair list are untouched
    rw [if_neg hpc, List.append_nil]
    cases hread : fs.read p with
    | none =>
      have hhash : get_file_hash hashFn fs p = none := get_file_hash_read_none hread
      cases hstat : fs.stat p with
      | none => rw [processFile_stat_none hstat]; exact ⟨hA, hB⟩
      | some sz =>
        cases hbk : afind sz st.file_hashes with
        | some bucket =>
          rw [processFile_ins_old_hashfail hstat hbk hhash]
          refine ⟨?_, hB⟩
          by_cases hsz : sz = c.length
          · subst hsz
            rw [← hA]
            simp [lookup2, afind_aset_self, hbk,
              afind_aset_ne (show (none : HKey) ≠ some (hashFn c) by simp)]
          · rw [← hA]
            simp [lookup2, afind_aset_ne (show sz ≠ c.length from hsz)]
        | none =>
          rw [processFile_ins_new_hashfail hstat hbk hhash]
          refine ⟨?_, hB⟩
          by_cases hsz : sz = c.length
          · subst hsz
            rw [← hA]
            simp [lookup2, afind_aset_self, hbk, afind]
          · rw [← hA]
            simp [lookup2, afind_aset_ne (show sz ≠ c.length from hsz)]
    | some c' =>
      have hcc : c' ≠ c := by
        intro he
        exact hpc (by rw [he] at hread; exact hread)
      have hkey : (some (hashFn c') : HKey) ≠ some (hashFn c) := by
        intro he
        exact hcc (hinj (Option.some.inj he))
      have hhash : get_file_hash hashFn fs p = some (hashFn c') := get_file_hash_read hread
      cases hstat : fs.stat p with
      | none => rw [processFile_stat_none hstat]; exact ⟨hA, hB⟩
      | some sz =>
        cases hbk : afind sz st.file_hashes with
        | some bucket =>
          cases hor : afind (some (hashFn c')) bucket with
          | some orig =>
            rw [processFile_dup hstat hbk hhash hor]
            refine ⟨hA, ?_⟩
            rw [List.filter_append, hB]
            simp [hpc]
          | none =>
            rw [processFile_ins_old hstat hbk hhash hor]
            refine ⟨?_, hB⟩
            by_cases hsz : sz = c.length
            · subst hsz
              rw [← hA]
              simp [lookup2, afind_aset_self, hbk, afind_aset_ne hkey]
            · rw [← hA]
              simp [lookup2, afind_aset_ne (show sz ≠ c.length from hsz)]
        | none =>
          rw [processFile_ins_new hstat hbk hhash]
          refine ⟨?_, hB⟩
          by_cases hsz : sz = c.length
          · subst hsz
            rw [← hA]
            simp [lookup2, afind_aset_self, hbk, afind, hkey]
          · rw [← hA]
            simp [lookup2, afind_aset_ne (show sz ≠ c.length from hsz)]

theorem GInv_fold {hashFn : Content → Content} {fs : FS} {c : Content}
    (hinj : Function.Injective hashFn) :
    ∀ (walk : List String) (st : ScanState) (gdone : List String),
      (∀ p ∈ walk, fs.read p = some c → fs.stat p = some c.length) →
      GInv hashFn fs c st gdone →
      GInv hashFn fs c (walk.foldl (processFile hashFn fs) st)
        (gdone ++ walk.filter (fun p => decide (fs.read p = some c)))
  | [], st, gdone, _, h => by simpa using h
  | p :: rest, st, gdone, hcons, h => by
    rw [List.foldl_cons]
    have hstep := GInv_step hinj (hcons p (List.mem_cons_self p rest)) h
    have hrest := GInv_fold hinj rest (processFile hashFn fs st p)
      (gdone ++ if fs.read p = some c then [p] else [])
      (fun q hq => hcons q (List.mem_cons_of_mem p hq)) hstep
    by_cases hpc : fs.read p = some c
    · simpa [List.filter_cons, hpc, List.append_assoc] using hrest
    · simpa [List.filter_cons, hpc] using hrest

/-- Full characterization of a scan for one content group: if the walked
paths whose content is `c` are `g₀ :: gs` (in walk order), then the recorded
original for `(c.length, hashFn c)` is `g₀` and the emitted pairs whose
duplicate side has content `c` are exactly `gs`, each paired with `g₀`. -/
theorem find_duplicate_files_group {hashFn : Content → Content} {fs : FS}
    {walk : List String} {c : Content}
    (hinj : Function.Injective hashFn) (hcons : consistentOn fs walk)
    {g₀ : String} {gs : List String}
    (hgrp : walk.filter (fun p => decide (fs.read p = some c)) = g₀ :: gs) :
    (find_duplicate_files hashFn fs walk).duplicates.filter
        (fun pr => decide (fs.read pr.1 = some c)) = gs.map (fun p => (p, g₀)) ∧
    lookup2 (find_duplicate_files hashFn fs walk).file_hashes c.length
        (some (hashFn c)) = some g₀ := by
  have h := GInv_fold hinj walk initState []
    (fun p hp hr => by
      have := hcons p hp c hr
      simpa using this)
    (GInv_init hashFn fs c)
  rw [List.nil_append, hgrp] at h
  obtain ⟨hA, hB⟩ := h
  exact ⟨by simpa using hB, by simpa using hA⟩

theorem afind_aset {α β : Type} [DecidableEq α] (k k' : α) (v : β) (l : List (α × β)) :
    afind k (aset k' v l) = if k' = k then some v else afind k l := by
  by_cases h : k' = k
  · subst h; simp [afind_aset_self]
  · simp [h, afind_aset_ne h]

/-- Structural soundness of the index and the pair list: every path stored
under `(size, fingerprint)` actually has that size and that fingerprint, and
both sides of every emitted pair have a common size and a common
fingerprint. -/
def SInv (hashFn : Content → Content) (fs : FS) (st : ScanState) : Prop :=
  (∀ s b, afind s st.file_hashes = some b →
    ∀ hh q, afind (some hh) b = some q →
      fs.stat q = some s ∧ get_file_hash hashFn fs q = some hh) ∧
  (∀ pr ∈ st.duplicates, ∃ s, fs.stat pr.1 = some s ∧ fs.stat pr.2 = some s ∧
    ∃ hh, get_file_hash hashFn fs pr.1 = some hh ∧
      get_file_hash hashFn fs pr.2 = some hh)

theorem SInv_init (hashFn : Content → Content) (fs : FS) : SInv hashFn fs initState := by
  constructor
  · intro s b hb
    simp [initState, afind] at hb
  · intro pr hpr
    simp [initState] at hpr

theorem SInv_step {hashFn : Content → Content} {fs : FS} {st : ScanState} {p : String}
    (h : SInv hashFn fs st) : SInv hashFn fs (processFile hashFn fs st p) := by
  obtain ⟨h1, h2⟩ := h
  cases hstat : fs.stat p with
  | none => rw [processFile_stat_none hstat]; exact ⟨h1, h2⟩
  | some sz =>
    cases hbk : afind sz st.file_hashes with
    | some bucket =>
      cases hh : get_file_hash hashFn fs p with
      | some hp =>
        cases hor : afind (some hp) bucket with
        | some orig =>
          rw [processFile_dup hstat hbk hh hor]
          refine ⟨h1, ?_⟩
          intro pr hpr
          simp only [List.mem_append, List.mem_singleton] at hpr
          rcases hpr with hpr | rfl
          · exact h2 pr hpr
          · obtain ⟨hos, hoh⟩ := h1 sz bucket hbk hp orig hor
            exact ⟨sz, hstat, hos, hp, hh, hoh⟩
        | none =>
          rw [processFile_ins_old hstat hbk hh hor]
          refine ⟨?_, h2⟩
          intro s b hb hh' q hq
          rw [afind_aset] at hb
          by_cases hsz : sz = s
          · rw [if_pos hsz] at hb
            subst hsz
            cases hb
            rw [afind_aset] at hq
            by_cases hkey : (some hp : HKey) = some hh'
            · rw [if_pos hkey] at hq
              cases hq
              cases hkey
              exact ⟨hstat, hh⟩
            · rw [if_neg hkey] at hq
              exact h1 sz bucket hbk hh' q hq
          · rw [if_neg hsz] at hb
            exact h1 s b hb hh' q hq
      | none =>
        rw [processFile_ins_old_hashfail hstat hbk hh]
        refine ⟨?_, h2⟩
        intro s b hb hh' q hq
        rw [afind_aset] at hb
        by_cases hsz : sz = s
        · rw [if_pos hsz] at hb
          subst hsz
          cases hb
          rw [afind_aset_ne (show (none : HKey) ≠ some hh' by simp)] at hq
          exact h1 sz bucket hbk hh' q hq
        · rw [if_neg hsz] at hb
          exact h1 s b hb hh' q hq
    | none =>
      cases hh : get_file_hash hashFn fs p with
      | some hp =>
        rw [processFile_ins_new hstat hbk hh]
        refine ⟨?_, h2⟩
        intro s b hb hh' q hq
        rw [afind_aset] at hb
        by_cases hsz : sz = s
        · rw [if_pos hsz] at hb
          subst hsz
          cases hb
          simp only [afind] at hq
          by_cases hkey : (some hp : HKey) = some hh'
          · rw [if_pos hkey] at hq
            cases hq
            cases hkey
            exact ⟨hstat, hh⟩
          · rw [if_neg hkey] at hq
            cases hq
        · rw [if_neg hsz] at hb
          exact h1 s b hb hh' q hq
      | none =>
        rw [processFile_ins_new_hashfail hstat hbk hh]
        refine ⟨?_, h2⟩
        intro s b hb hh' q hq
        rw [afind_aset] at hb
        by_cases hsz : sz = s
        · rw [if_pos hsz] at hb
          subst hsz
          cases hb
          simp only [afind] at hq
          rw [if_neg (show (none : HKey) ≠ some hh' by simp)] at hq
          cases hq
        · rw [if_neg hsz] at hb
          exact h1 s b hb hh' q hq

theorem SInv_fold {hashFn : Content → Content} {fs : FS} :
    ∀ (walk : List String) (st : ScanState),
      SInv hashFn fs st → SInv hashFn fs (walk.foldl (processFile hashFn fs) st)
  | [], _, h => h
  | p :: rest, st, h => by
    rw [List.foldl_cons]
    exact SInv_fold rest (processFile hashFn fs st p) (SInv_step h)

theorem SInv_run (hashFn : Content → Content) (fs : FS) (walk : List String) :
    SInv hashFn fs (find_duplicate_files hashFn fs walk) :=
  SInv_fold walk initState (SInv_init hashFn fs)

/-- Provenance invariant: every path stored in the index, and the original
side of every emitted pair, has been written to the index at some point
(logged in `inserted`). -/
def OInv (st : ScanState) : Prop :=
  (∀ s b, afind s st.file_hashes = some b →
    ∀ k q, afind k b = some q → q ∈ st.inserted) ∧
  (∀ pr ∈ st.duplicates, pr.2 ∈ st.inserted)

theorem OInv_init : OInv initState := by
  constructor
  · intro s b hb
    simp [initState, afind] at hb
  · intro pr hpr
    simp [initState] at hpr

theorem OInv_step {hashFn : Content → Content} {fs : FS} {st : ScanState} {p : String}
    (h : OInv st) : OInv (processFile hashFn fs st p) := by
  obtain ⟨h1, h2⟩ := h
  have hmem : ∀ q : String, q ∈ st.inserted → q ∈ st.inserted ++ [p] := by
    intro q hq
    exact List.mem_append_left _ hq
  cases hstat : fs.stat p with
  | none => rw [processFile_stat_none hstat]; exact ⟨h1, h2⟩
  | some sz =>
    cases hbk : afind sz st.file_hashes with
    | some bucket =>
      cases hh : get_file_hash hashFn fs p with
      | some hp =>
        cases hor : afind (some hp) bucket with
        | some orig =>
          rw [processFile_dup hstat hbk hh hor]
          refine ⟨h1, ?_⟩
          intro pr hpr
          simp only [List.mem_append, List.mem_singleton] at hpr
          rcases hpr with hpr | rfl
          · exact h2 pr hpr
          · exact h1 sz bucket hbk (some hp) orig hor
        | none =>
          rw [processFile_ins_old hstat hbk hh hor]
          refine ⟨?_, fun pr hpr => hmem _ (h2 pr hpr)⟩
          intro s b hb k q hq
          rcases afind_aset_cases hb with rfl | hbold
          · rcases afind_aset_cases hq with rfl | hqold
            · simp
            · exact hmem _ (h1 sz bucket hbk k q hqold)
          · exact hmem _ (h1 s b hbold k q hq)
      | none =>
        rw [processFile_ins_old_hashfail hstat hbk hh]
        refine ⟨?_, fun pr hpr => hmem _ (h2 pr hpr)⟩
        intro s b hb k q hq
        rcases afind_aset_cases hb with rfl | hbold
        · rcases afind_aset_cases hq with rfl | hqold
          · simp
          · exact hmem _ (h1 sz bucket hbk k q hqold)
        · exact hmem _ (h1 s b hbold k q hq)
    | none =>
      cases hh : get_file_hash hashFn fs p with
      | some hp =>
        rw [processFile_ins_new hstat hbk hh]
        refine ⟨?_, fun pr hpr => hmem _ (h2 pr hpr)⟩
        intro s b hb k q hq
        rcases afind_aset_cases hb with rfl | hbold
        · simp only [afind] at hq
          split at hq
          · cases hq; simp
          · cases hq
        · exact hmem _ (h1 s b hbold k q hq)
      | none =>
        rw [processFile_ins_new_hashfail hstat hbk hh]
        refine ⟨?_, fun pr hpr => hmem _ (h2 pr hpr)⟩
        intro s b hb k q hq
        rcases afind_aset_cases hb with rfl | hbold
        · simp only [afind] at hq
          split at hq
          · cases hq; simp
          · cases hq
        · exact hmem _ (h1 s b hbold k q hq)

theorem OInv_fold {hashFn : Content → Content} {fs : FS} :
    ∀ (walk : List String) (st : ScanState),
      OInv st → OInv (walk.foldl (processFile hashFn fs) st)
  | [], _, h => h
  | p :: rest, st, h => by
    rw [List.foldl_cons]
    exact OInv_fold rest (processFile hashFn fs st p) (OInv_step h)

theorem OInv_run (hashFn : Content → Content) (fs : FS) (walk : List String) :
    OInv (find_duplicate_files hashFn fs walk) :=
  OInv_fold walk initState OInv_init

/-- Number of roles a path plays in a scan state: index insertions plus
appearances as the duplicate side of a pair. -/
def roleCount (st : ScanState) (p : String) : Nat :=
  st.inserted.count p + (st.duplicates.map Prod.fst).count p

theorem processFile_roleCount_ne {hashFn : Content → Content} {fs : FS}
    {st : ScanState} {q p : String} (hne : q ≠ p) :
    roleCount (processFile hashFn fs st q) p = roleCount st p := by
  cases hstat : fs.stat q with
  | none => rw [processFile_stat_none hstat]; rfl
  | some sz =>
    cases hbk : afind sz st.file_hashes with
    | some bucket =>
      cases hh : get_file_hash hashFn fs q with
      | some hq =>
        cases hor : afind (some hq) bucket with
        | some orig =>
          rw [processFile_dup hstat hbk hh hor]
          simp [roleCount, List.count_append, List.count_singleton, hne]
        | none =>
          rw [processFile_ins_old hstat hbk hh hor]
          simp [roleCount, List.count_append, List.count_singleton, hne]
      | none =>
        rw [processFile_ins_old_hashfail hstat hbk hh]
        simp [roleCount, List.count_append, List.count_singleton, hne]
    | none =>
      cases hh : get_file_hash hashFn fs q with
      | some hq =>
        rw [processFile_ins_new hstat hbk hh]
        simp [roleCount, List.count_append, List.count_singleton, hne]
      | none =>
        rw [processFile_ins_new_hashfail hstat hbk hh]
        simp [roleCount, List.count_append, List.count_singleton, hne]

theorem processFile_roleCount_self {hashFn : Content → Content} {fs : FS}
    {st : ScanState} {p : String} {sz : Nat} {hp : Content}
    (hstat : fs.stat p = some sz) (hh : get_file_hash hashFn fs p = some hp) :
    roleCount (processFile hashFn fs st p) p = roleCount st p + 1 := by
  cases hbk : afind sz st.file_hashes with
  | some bucket =>
    cases hor : afind (some hp) bucket with
    | some orig =>
      rw [processFile_dup hstat hbk hh hor]
      simp [roleCount, List.count_append, List.count_singleton]
      omega
    | none =>
      rw [processFile_ins_old hstat hbk hh hor]
      simp [roleCount, List.count_append, List.count_singleton]
      omega
  | none =>
    rw [processFile_ins_new hstat hbk hh]
    simp [roleCount, List.count_append, List.count_singleton]
    omega

theorem foldl_roleCount_not_mem {hashFn : Content → Content} {fs : FS} {p : String} :
    ∀ (walk : List String) (st : ScanState), p ∉ walk →
      roleCount (walk.foldl (processFile hashFn fs) st) p = roleCount st p
  | [], _, _ => rfl
  | q :: rest, st, hnp => by
    rw [List.foldl_cons]
    have hq : q ≠ p := fun he => hnp (he ▸ List.mem_cons_self q rest)
    rw [foldl_roleCount_not_mem rest _ (fun hm => hnp (List.mem_cons_of_mem q hm))]
    exact processFile_roleCount_ne hq

theorem manage_move_dirs_inv {w : World} {now : Nat → Nat} {t : Nat}
    (ht : ∀ i, now i = t) :
    ∀ (pairs : List (String × String)) (i : Nat) (st : DispState),
      st.createdDirs.length ≤ 1 →
      (st.createdDirs ≠ [] → ("duplicates_" ++ toString t) ∈ st.dirs) →
      (dispResultState
        (manage_duplicate_files w .move now i st pairs)).createdDirs.length ≤ 1
  | [], i, st, hlen, _ => by
    simpa [manage_duplicate_files, dispResultState] using hlen
  | pr :: rest, i, st, hlen, hdirs => by
    rw [manage_duplicate_files]
    by_cases hdir : ("duplicates_" ++ toString t) ∈ st.dirs
    · by_cases hmv : pr.2 ∈ st.files ∧ pr.2 ∉ w.denied
      · simp only [dispStep, ht i, if_pos hdir, if_pos hmv]
        exact manage_move_dirs_inv ht rest (i + 1) _
          (by simpa using hlen) (by simpa using hdirs)
      · simp only [dispStep, ht i, if_pos hdir, if_neg hmv]
        simpa [dispResultState] using hlen
    · have hempty : st.createdDirs = [] := by
        by_contra hne
        exact hdir (hdirs hne)
      by_cases hmv : pr.2 ∈ st.files ∧ pr.2 ∉ w.denied
      · simp only [dispStep, ht i, if_neg hdir, if_pos hmv]
        exact manage_move_dirs_inv ht rest (i + 1) _
          (by simp [hempty]) (by simp)
      · simp only [dispStep, ht i, if_neg hdir, if_neg hmv]
        simp [dispResultState, hempty]

/-- Concrete digest for witnesses: the identity, which is injective. -/
def idContent : Content → Content := fun c => c

theorem idContent_injective : Function.Injective idContent := fun _ _ h => h

/-- Concrete tree with two byte-identical files, discovered as `orig` then
`dup`, and one unrelated file `x` of a different size. -/
def fsPair : FS where
  stat := fun p => if p = "orig" ∨ p = "dup" then some 2
    else if p = "x" then some 1 else none
  read := fun p => if p = "orig" ∨ p = "dup" then some [7, 7]
    else if p = "x" then some [9] else none

/-- Concrete tree with a single readable file. -/
def fsOne : FS where
  stat := fun p => if p = "a" then some 1 else none
  read := fun p => if p = "a" then some [5] else none

/-- Concrete tree with two same-size files of different content. -/
def fsAB : FS where
  stat := fun p => if p = "a" ∨ p = "b" then some 1 else none
  read := fun p => if p = "a" then some [1] else if p = "b" then some [2] else none

/-- Concrete tree where `u` stats fine but cannot be read (permission
failure inside `get_file_hash`), next to the identical pair of `fsPair`. -/
def fsMix : FS where
  stat := fun p => if p = "u" then some 3
    else if p = "orig" ∨ p = "dup" then some 2 else none
  read := fun p => if p = "orig" ∨ p = "dup" then some [7, 7] else none

/-- A filesystem with no readable entries at all. -/
def emptyFS : FS where
  stat := fun _ => none
  read := fun _ => none

def w0 : World := ⟨[]⟩

/-- Disposition start state for the `fsPair` tree: both files on disk, no
quarantine directory yet. -/
def dPair : DispState := ⟨["orig", "x", "dup"], [], [], [], [], []⟩

/-- Disposition start state where the first pair's target `b` is already
gone and the second pair's target `d` exists. -/
def dGone : DispState := ⟨["d"], [], [], [], [], []⟩

/-- C1. The claim says a disposition acts only on the pair's duplicate path
and never removes or moves the path recorded as the original. The code
violates it: `find_duplicate_files` appends `(full_path, existing_path)`,
i.e. (duplicate, original) — here `("dup", "orig")`, with `orig` the
first-discovered file recorded in the index — but `manage_duplicate_files`
deletes/moves `path2`, the second component. So delete removes `orig` (and
leaves `dup`), and move relocates `orig`, exactly the recorded original.
This also contradicts the code's own labels, which print `path1` as 원본
(original) and `path2` as 중복 (duplicate). -/
theorem c1_disposition_removes_recorded_original :
    (find_duplicate_files idContent fsPair ["orig", "x", "dup"]).duplicates
      = [("dup", "orig")] ∧
    lookup2 (find_duplicate_files idContent fsPair ["orig", "x", "dup"]).file_hashes
      2 (some [7, 7]) = some "orig" ∧
    (dispResultState (manage_duplicate_files w0 .delete (fun _ => 0) 0 dPair
      (find_duplicate_files idContent fsPair ["orig", "x", "dup"]).duplicates)).removed
      = ["orig"] ∧
    "dup" ∈ (dispResultState (manage_duplicate_files w0 .delete (fun _ => 0) 0 dPair
      (find_duplicate_files idContent fsPair ["orig", "x", "dup"]).duplicates)).files ∧
    (dispResultState (manage_duplicate_files w0 .move (fun _ => 0) 0 dPair
      (find_duplicate_files idContent fsPair ["orig", "x", "dup"]).duplicates)).moved
      = [("orig", "duplicates_0/orig")] := by
  decide

/-- Formalization of claim C6 for the run model: scanning an invalid root
(whose `os.walk` yields no entries) reports some error. -/
def rootErrorReported (hashFn : Content → Content) (fs : FS) : Prop :=
  (find_duplicate_files hashFn fs []).errors ≠ []

/-- C6 counterexample. The code never validates the scan root: `os.walk` on
a nonexistent or non-directory root yields no entries (the default
`onerror=None` swallows the scandir error), so `find_duplicate_files`
completes silently with no error report at all — there is no fatal
configuration error before scanning. -/
theorem c6_invalid_root_no_error_counterexample :
    ¬ rootErrorReported idContent emptyFS := by
  intro h
  exact h rfl

/-- C6 amended: with an invalid root the walk is empty and the run completes
normally, returning an empty duplicate list and reporting no error, instead
of aborting with a configuration error. -/
theorem c6_amended_invalid_root_completes_silently (hashFn : Content → Content)
    (fs : FS) :
    find_duplicate_files hashFn fs [] = initState ∧
    (find_duplicate_files hashFn fs []).duplicates = [] ∧
    (find_duplicate_files hashFn fs []).errors = [] :=
  ⟨rfl, rfl, rfl⟩

/-- Formalization of claim C7 as stated: over a whole quarantine run the
holding directory is created at most once. -/
def quarantineDirOncePerRun (w : World) (now : Nat → Nat) (d : DispState)
    (pairs : List (String × String)) : Prop :=
  (dispResultState (manage_duplicate_files w .move now 0 d pairs)).createdDirs.length ≤ 1

/-- C7 counterexample. The move branch recomputes
`datetime.now().strftime(...)` on every pair and derives the directory name
from it, then calls `os.makedirs` whenever that name does not exist yet. A
run of two pairs whose timestamps differ (the clock reads 0 then 1) creates
two holding directories, `duplicates_0` and `duplicates_1` — the directory
is per-pair, not once per run, and its name is not the run's start time. -/
theorem c7_dir_created_per_pair_counterexample :
    ¬ quarantineDirOncePerRun w0 (fun i => i) ⟨["b", "d"], [], [], [], [], []⟩
      [("a", "b"), ("c", "d")] := by
  unfold quarantineDirOncePerRun
  decide

/-- C7 amended: the holding-directory name is recomputed from the current
clock at each pair and the directory is created lazily whenever absent, so
within any stretch of a run during which the clock string stays the same, at
most one holding directory is created and then reused; a run whose timestamp
changes between pairs creates one directory per distinct timestamp. -/
theorem c7_amended_single_dir_per_timestamp {now : Nat → Nat} {t : Nat}
    (ht : ∀ i, now i = t) (w : World) (files dirs : List String)
    (pairs : List (String × String)) (i : Nat) :
    (dispResultState (manage_duplicate_files w .move now i
      ⟨files, dirs, [], [], [], []⟩ pairs)).createdDirs.length ≤ 1 :=
  manage_move_dirs_inv ht pairs i _ (by simp) (by simp)

/-- Witness for the amended C7 at a concrete run: constant clock, two pairs,
at most one directory created. -/
theorem c7_amended_single_dir_witness :
    (dispResultState (manage_duplicate_files w0 .move (fun _ => 5) 0
      ⟨["b", "d"], [], [], [], [], []⟩
      [("a", "b"), ("c", "d")])).createdDirs.length ≤ 1 :=
  c7_amended_single_dir_per_timestamp (fun _ => rfl) w0 ["b", "d"] []
    [("a", "b"), ("c", "d")] 0

/-- C8. The claim says a delete or move failure is recorded per pair and the
batch continues. The delete branch does behave that way (`except OSError`
catches the raise, records it, and the loop continues). The move branch does
not: `shutil.move` on an already-gone file raises `FileNotFoundError`, which
is an `OSError` but not a `shutil.Error`, so the `except shutil.Error`
clause does not catch it and the exception aborts the whole batch. With
pairs `[(a,b), (c,d)]` where `b` is gone and `d` exists: in move mode the
run aborts, nothing is moved, no per-pair failure is recorded, and the
second pair is never processed (`d` survives untouched); in delete mode the
same input records the per-pair failure for `b` and continues to remove
`d`. -/
theorem c8_move_failure_aborts_batch :
    isBatchAbort (manage_duplicate_files w0 .move (fun _ => 0) 0 dGone
      [("a", "b"), ("c", "d")]) = true ∧
    (dispResultState (manage_duplicate_files w0 .move (fun _ => 0) 0 dGone
      [("a", "b"), ("c", "d")])).moved = [] ∧
    (dispResultState (manage_duplicate_files w0 .move (fun _ => 0) 0 dGone
      [("a", "b"), ("c", "d")])).pairErrors = [] ∧
    "d" ∈ (dispResultState (manage_duplicate_files w0 .move (fun _ => 0) 0 dGone
      [("a", "b"), ("c", "d")])).files ∧
    isBatchAbort (manage_duplicate_files w0 .delete (fun _ => 0) 0 dGone
      [("a", "b"), ("c", "d")]) = false ∧
    (dispResultState (manage_duplicate_files w0 .delete (fun _ => 0) 0 dGone
      [("a", "b"), ("c", "d")])).pairErrors = ["b"] ∧
    (dispResultState (manage_duplicate_files w0 .delete (fun _ => 0) 0 dGone
      [("a", "b"), ("c", "d")])).removed = ["d"] := by
  decide

/-- C2. For any content `c`, if the walked files with that content are
`g₀ :: gs` in walk order (a group of `N = gs.length + 1` identical files),
the scan emits exactly the `N − 1` pairs `(q, g₀)` for `q ∈ gs` — each later
discovery paired with the first — and the index still records `g₀`, the
first-discovered file, under `(c.length, hashFn c)` at the end of the scan:
the original is never replaced by a later file of the same content. -/
theorem c2_identical_group_pairs {hashFn : Content → Content} {fs : FS}
    {walk : List String} {c : Content}
    (hinj : Function.Injective hashFn) (hcons : consistentOn fs walk)
    {g₀ : String} {gs : List String}
    (hgrp : walk.filter (fun p => decide (fs.read p = some c)) = g₀ :: gs) :
    (find_duplicate_files hashFn fs walk).duplicates.filter
        (fun pr => decide (fs.read pr.1 = some c)) = gs.map (fun p => (p, g₀)) ∧
    lookup2 (find_duplicate_files hashFn fs walk).file_hashes c.length
        (some (hashFn c)) = some g₀ ∧
    ((find_duplicate_files hashFn fs walk).duplicates.filter
        (fun pr => decide (fs.read pr.1 = some c))).length =
      (walk.filter (fun p => decide (fs.read p = some c))).length - 1 := by
  obtain ⟨h1, h2⟩ := find_duplicate_files_group hinj hcons hgrp
  refine ⟨h1, h2, ?_⟩
  rw [h1, hgrp]
  simp

/-- Witness for C2 on the concrete `fsPair` tree: group `["orig", "dup"]`
with content `[7, 7]` yields the single pair `("dup", "orig")` and keeps
`orig` as the indexed original. -/
theorem c2_identical_group_pairs_witness :
    (find_duplicate_files idContent fsPair ["orig", "x", "dup"]).duplicates.filter
        (fun pr => decide (fsPair.read pr.1 = some [7, 7]))
      = ["dup"].map (fun p => (p, "orig")) ∧
    lookup2 (find_duplicate_files idContent fsPair ["orig", "x", "dup"]).file_hashes
        2 (some [7, 7]) = some "orig" ∧
    ((find_duplicate_files idContent fsPair ["orig", "x", "dup"]).duplicates.filter
        (fun pr => decide (fsPair.read pr.1 = some [7, 7]))).length =
      (["orig", "x", "dup"].filter
        (fun p => decide (fsPair.read p = some [7, 7]))).length - 1 :=
  @c2_identical_group_pairs idContent fsPair ["orig", "x", "dup"] [7, 7]
    idContent_injective (consistentOnB_sound (by decide)) "orig" ["dup"] (by decide)

/-- Formalization of the gated-hashing half of claim C3 as stated: a walked
file's fingerprint is computed only when an earlier walked file with the
same reported size has already been observed. -/
def hashedOnlyOnSizeCollision (hashFn : Content → Content) (fs : FS)
    (walk : List String) : Prop :=
  ∀ i, ∀ hi : i < walk.length,
    walk.get ⟨i, hi⟩ ∈ (find_duplicate_files hashFn fs walk).hashed →
    ∃ j, ∃ hj : j < walk.length, j < i ∧
      fs.stat (walk.get ⟨j, hj⟩) = fs.stat (walk.get ⟨i, hi⟩)

/-- C3 counterexample. The source computes `get_file_hash` in both branches
of the size test — also for the very first file of a size
(`file_hashes[file_size] = {get_file_hash(full_path): full_path}`) — so a
walk consisting of a single file already hashes it although no other file of
its size was ever observed. -/
theorem c3_hash_without_size_collision_counterexample :
    ¬ hashedOnlyOnSizeCollision idContent fsOne ["a"] := by
  intro h
  obtain ⟨j, hj, hlt, -⟩ := h 0 (by decide) (by decide)
  omega

/-- C3 amended: no pair ever relates files of different reported size
(both sides of every pair share one size), and the size gate misses no true
duplicate (every later file of an already-seen content is emitted as a
duplicate of the group's first file); however the fingerprint is computed
eagerly for every walked file whose `getsize` succeeds — including the first
file of each size — not only on size collisions. -/
theorem c3_amended_eager_hash_and_size_sound {hashFn : Content → Content} {fs : FS}
    {walk : List String}
    (hinj : Function.Injective hashFn) (hcons : consistentOn fs walk) :
    (find_duplicate_files hashFn fs walk).hashed
      = walk.filter (fun p => (fs.stat p).isSome) ∧
    (∀ pr ∈ (find_duplicate_files hashFn fs walk).duplicates,
      ∃ s, fs.stat pr.1 = some s ∧ fs.stat pr.2 = some s) ∧
    (∀ c g₀ gs, walk.filter (fun p => decide (fs.read p = some c)) = g₀ :: gs →
      ∀ q ∈ gs, (q, g₀) ∈ (find_duplicate_files hashFn fs walk).duplicates) := by
  refine ⟨find_duplicate_files_hashed hashFn fs walk, ?_, ?_⟩
  · intro pr hpr
    obtain ⟨s, h1, h2, -, -, -⟩ := (SInv_run hashFn fs walk).2 pr hpr
    exact ⟨s, h1, h2⟩
  · intro c g₀ gs hgrp q hq
    obtain ⟨h1, -⟩ := find_duplicate_files_group hinj hcons hgrp
    have hmem : (q, g₀) ∈ (find_duplicate_files hashFn fs walk).duplicates.filter
        (fun pr => decide (fs.read pr.1 = some c)) := by
      rw [h1]
      exact List.mem_map_of_mem _ hq
    exact List.mem_of_mem_filter hmem

/-- Witness for the amended C3: on `fsPair` the later identical file `dup`
is indeed emitted as a duplicate of the first one. -/
theorem c3_amended_eager_hash_witness :
    ("dup", "orig") ∈ (find_duplicate_files idContent fsPair
      ["orig", "x", "dup"]).duplicates :=
  (@c3_amended_eager_hash_and_size_sound idContent fsPair ["orig", "x", "dup"]
    idContent_injective (consistentOnB_sound (by decide))).2.2
    [7, 7] "orig" ["dup"] (by decide) "dup" (by decide)

/-- C4. Both sides of every emitted pair read the same content — so two
files of equal size but different content are never paired — and a file
that is the first of its own content group is inserted as a new
distinct-content entry: the index records it under its size and its own
fingerprint at the end of the scan. -/
theorem c4_equal_size_different_content_never_paired {hashFn : Content → Content}
    {fs : FS} {walk : List String}
    (hinj : Function.Injective hashFn) (hcons : consistentOn fs walk) :
    (∀ pr ∈ (find_duplicate_files hashFn fs walk).duplicates,
      ∃ c, fs.read pr.1 = some c ∧ fs.read pr.2 = some c) ∧
    (∀ c q gs, walk.filter (fun p => decide (fs.read p = some c)) = q :: gs →
      lookup2 (find_duplicate_files hashFn fs walk).file_hashes c.length
        (some (hashFn c)) = some q) := by
  refine ⟨?_, ?_⟩
  · intro pr hpr
    obtain ⟨s, -, -, hh, hp1, hp2⟩ := (SInv_run hashFn fs walk).2 pr hpr
    obtain ⟨c₁, hr₁, he₁⟩ := get_file_hash_some_inv hp1
    obtain ⟨c₂, hr₂, he₂⟩ := get_file_hash_some_inv hp2
    have hc : c₁ = c₂ := hinj (he₁.trans he₂.symm)
    refine ⟨c₁, hr₁, ?_⟩
    rw [hc]
    exact hr₂
  · intro c q gs hgrp
    exact (find_duplicate_files_group hinj hcons hgrp).2

/-- Witness for C4 on `fsAB`: `a` and `b` have equal size 1 but different
contents; no pair is emitted and `b` gets its own index entry under size 1
with its own fingerprint. -/
theorem c4_equal_size_different_content_witness :
    lookup2 (find_duplicate_files idContent fsAB ["a", "b"]).file_hashes 1
      (some [2]) = some "b" :=
  (@c4_equal_size_different_content_never_paired idContent fsAB ["a", "b"]
    idContent_injective (consistentOnB_sound (by decide))).2 [2] "b" [] (by decide)

/-- C5 counterexample. A path whose fingerprint computation fails is NOT
excluded from the size-hash index: the source stores it under the dict key
`None` (`file_hashes[file_size][current_hash] = full_path` with
`current_hash is None`, and likewise `{get_file_hash(...): full_path}` in
the new-size branch). Here the unreadable `u` ends up stored in the index. -/
theorem c5_failed_path_stored_in_index_counterexample :
    get_file_hash idContent fsMix "u" = none ∧
    "u" ∈ indexValues (find_duplicate_files idContent fsMix
      ["u", "orig", "dup"]).file_hashes := by
  decide

/-- C5 amended: a path whose fingerprint computation fails never appears on
either side of any duplicate pair, the failure is reported as a per-file
error, and the scan continues (the reported errors are exactly the failed
walked paths, wherever they occur in the walk) — but the path is inserted
into the index under a null-fingerprint key rather than excluded from it. -/
theorem c5_amended_failed_paths_never_paired (hashFn : Content → Content)
    (fs : FS) (walk : List String) :
    (∀ pr ∈ (find_duplicate_files hashFn fs walk).duplicates,
      (get_file_hash hashFn fs pr.1).isSome ∧
      (get_file_hash hashFn fs pr.2).isSome) ∧
    (find_duplicate_files hashFn fs walk).errors
      = walk.filter (fileErrorB hashFn fs) := by
  refine ⟨?_, find_duplicate_files_errors hashFn fs walk⟩
  intro pr hpr
  obtain ⟨s, -, -, hh, hp1, hp2⟩ := (SInv_run hashFn fs walk).2 pr hpr
  constructor
  · rw [hp1]; rfl
  · rw [hp2]; rfl

/-- Witness for the amended C5 on `fsMix` (an unreadable file next to two
identical ones): the emitted pair's two sides both hashed successfully. -/
theorem c5_amended_failed_paths_witness :
    (get_file_hash idContent fsMix "dup").isSome ∧
    (get_file_hash idContent fsMix "orig").isSome :=
  (c5_amended_failed_paths_never_paired idContent fsMix ["u", "orig", "dup"]).1
    ("dup", "orig") (by decide)

/-- C9. For every path, `get_file_hash` either returns the digest of the
file's full byte content — reassembled from the bounded 8192-byte chunks the
read loop feeds to the hasher — or returns the typed failure value `None`
when the file cannot be read; the `except IOError` handler means no read
failure escapes as an exception, so the result is total: exactly one of the
two outcomes holds. -/
theorem c9_get_file_hash_total_chunked (hashFn : Content → Content) (fs : FS)
    (p : String) :
    (∃ c, fs.read p = some c ∧ get_file_hash hashFn fs p = some (hashFn c) ∧
      ∀ ch ∈ chunksOf 8192 c, ch.length ≤ 8192) ∨
    (fs.read p = none ∧ get_file_hash hashFn fs p = none) := by
  cases hr : fs.read p with
  | none => exact Or.inr ⟨rfl, get_file_hash_read_none hr⟩
  | some c =>
    refine Or.inl ⟨c, rfl, get_file_hash_read hr, ?_⟩
    intro ch hch
    exact chunksGo_length_le 8192 (c.length + 1) c ch hch

/-- C10. In a scan over distinct paths, every path that is successfully
classified (its `getsize` and its fingerprint both succeed) plays exactly
one role: it is either written into the index exactly once, or emitted
exactly once as the duplicate side of a single pair — never both; and a path
emitted as a duplicate side is never recorded as the original side of any
pair, since originals are always paths that were written into the index. -/
theorem c10_classified_path_single_role {hashFn : Content → Content} {fs : FS}
    {walk : List String} {p : String} {s : Nat} {hp : Content}
    (hnd : walk.Nodup) (hmem : p ∈ walk)
    (hstat : fs.stat p = some s) (hhash : get_file_hash hashFn fs p = some hp) :
    ((find_duplicate_files hashFn fs walk).inserted.count p = 1 ∧
      ((find_duplicate_files hashFn fs walk).duplicates.map Prod.fst).count p = 0 ∨
     (find_duplicate_files hashFn fs walk).inserted.count p = 0 ∧
      ((find_duplicate_files hashFn fs walk).duplicates.map Prod.fst).count p = 1) ∧
    (p ∈ (find_duplicate_files hashFn fs walk).duplicates.map Prod.fst →
      p ∉ (find_duplicate_files hashFn fs walk).duplicates.map Prod.snd) := by
  obtain ⟨l₁, l₂, rfl⟩ := List.append_of_mem hmem
  rw [List.nodup_append] at hnd
  obtain ⟨-, hnd₂, hdisj⟩ := hnd
  have hnp₂ : p ∉ l₂ := (List.nodup_cons.mp hnd₂).1
  have hnp₁ : p ∉ l₁ := fun hm => hdisj hm (List.mem_cons_self p l₂)
  have hrole : roleCount (find_duplicate_files hashFn fs (l₁ ++ p :: l₂)) p = 1 := by
    rw [find_duplicate_files, List.foldl_append, List.foldl_cons]
    rw [foldl_roleCount_not_mem l₂ _ hnp₂, processFile_roleCount_self hstat hhash,
      foldl_roleCount_not_mem l₁ _ hnp₁]
    simp [roleCount, initState]
  constructor
  · simp only [roleCount] at hrole
    omega
  · intro hfst hsnd
    obtain ⟨pr, hpr, hpr2⟩ := List.mem_map.mp hsnd
    have hins : p ∈ (find_duplicate_files hashFn fs (l₁ ++ p :: l₂)).inserted :=
      hpr2 ▸ (OInv_run hashFn fs (l₁ ++ p :: l₂)).2 pr hpr
    have h1 : (find_duplicate_files hashFn fs (l₁ ++ p :: l₂)).inserted.count p ≠ 0 :=
      fun h0 => (List.count_eq_zero.mp h0) hins
    have h2 : ((find_duplicate_files hashFn fs
        (l₁ ++ p :: l₂)).duplicates.map Prod.fst).count p ≠ 0 :=
      fun h0 => (List.count_eq_zero.mp h0) hfst
    simp only [roleCount] at hrole
    omega

/-- Witness for C10 on `fsPair`: the duplicate `dup` is never inserted into
the index and appears exactly once as a duplicate side. -/
theorem c10_classified_path_single_role_witness :
    (find_duplicate_files idContent fsPair ["orig", "x", "dup"]).inserted.count "dup" = 1 ∧
      ((find_duplicate_files idContent fsPair
        ["orig", "x", "dup"]).duplicates.map Prod.fst).count "dup" = 0 ∨
    (find_duplicate_files idContent fsPair ["orig", "x", "dup"]).inserted.count "dup" = 0 ∧
      ((find_duplicate_files idContent fsPair
        ["orig", "x", "dup"]).duplicates.map Prod.fst).count "dup" = 1 :=
  (@c10_classified_path_single_role idContent fsPair ["orig", "x", "dup"] "dup" 2 [7, 7]
    (by decide) (by decide) (by decide) (by decide)).1
